import Mathlib

/-!
Verification development for `process_signal.py` (BasicSignalFiltering).

The script's core pipeline is embedded over the real numbers:
* `compute_psd` — `np.fft.fft`, `np.fft.fftfreq`, first `⌊N/2⌋` bins,
  squared magnitudes (lines 48-59 of the source);
* `compute_band_powers` — boolean-mask band sums (lines 62-72);
* `apply_notch_filter` — `scipy.signal.iirnotch` + `scipy.signal.filtfilt`
  (lines 23-33), with the scipy internals (`odd_ext`, `lfilter`,
  `lfilter_zi`, padding and trimming) embedded from the scipy sources.

Python exceptions raised by the underlying library calls are modelled with
an explicit `Except` error channel; real-number division is Lean's total
division (division by zero yields the junk value `0`, where IEEE floats
would produce `inf`/`nan` junk instead).
-/

/-- Exceptions that the library calls made by `process_signal.py` can raise.
`invalidFFTLength` is numpy's `ValueError` for a zero-length FFT;
`insufficientSamples` is scipy `filtfilt`'s `ValueError` when the input is
not longer than the padding; `invalidFrequency` is scipy `iirnotch`'s
`ValueError` for a normalized frequency outside `[0, 1]`; `zeroDivision`
is Python's `ZeroDivisionError`. -/
inductive Err where
  | invalidFFTLength
  | insufficientSamples
  | invalidFrequency
  | zeroDivision
  deriving DecidableEq, Repr

/-- Discrete Fourier transform as computed by `np.fft.fft`:
coefficient `k` is `Σ_n x_n · exp(-2πi·k·n/N)`. -/
noncomputable def dft (x : List ℂ) : List ℂ :=
  (List.range x.length).map (fun (k : ℕ) =>
    ((List.range x.length).map (fun (n : ℕ) =>
      x.getD n 0 *
        Complex.exp (-(2 * (Real.pi : ℂ) * Complex.I * (k : ℂ) * (n : ℂ)) / (x.length : ℂ)))).sum)

/-- Frequency axis as computed by `np.fft.fftfreq n d`: entry `k` is
`k/(d·n)` for `k < ⌈n/2⌉` and `(k-n)/(d·n)` past the midpoint. -/
noncomputable def fftfreq (n : ℕ) (d : ℝ) : List ℝ :=
  (List.range n).map (fun k =>
    if k < (n + 1) / 2 then (k : ℝ) / (d * n) else ((k : ℝ) - n) / (d * n))

/-- Embedding of `compute_psd` (source lines 48-59): FFT of the whole
signal, keep the first `len // 2` frequencies and the squared magnitudes
of the first `len // 2` coefficients.  `np.fft.fft` raises a `ValueError`
on a zero-length input, modelled by the error branch. -/
noncomputable def compute_psd (signal_data : List ℝ) (sample_rate : ℝ) :
    Except Err (List ℝ × List ℝ) :=
  if signal_data.length = 0 then .error .invalidFFTLength
  else
    let fft_vals := dft (signal_data.map Complex.ofReal)
    let freqs := fftfreq signal_data.length (1 / sample_rate)
    let half_index := signal_data.length / 2
    .ok (freqs.take half_index,
         (fft_vals.take half_index).map (fun c => Complex.abs c ^ 2))

/-- Embedding of `compute_band_powers` (source lines 62-72): for each band
`(low_edge, high_edge)` in order, sum the psd entries at the positions
where `low_edge ≤ freqs[j] ∧ freqs[j] < high_edge` (the numpy boolean
mask pairs the two equal-length arrays positionally, modelled by `zip`). -/
noncomputable def compute_band_powers (freqs psd : List ℝ) (bands : List (ℝ × ℝ)) :
    List ℝ :=
  bands.map (fun band =>
    (((freqs.zip psd).filter
        (fun fp => decide (band.1 ≤ fp.1 ∧ fp.1 < band.2))).map Prod.snd).sum)

/-- Odd extension of a sequence, as computed by `scipy.signal.odd_ext`
with pad length `n`: the left pad entry `i` is `2·x[0] - x[n-i]` and the
right pad entry `j` is `2·x[-1] - x[len-2-j]` (point reflection about the
two end samples).  `filtfilt` only calls this with `n < x.length`. -/
noncomputable def odd_ext (x : List ℝ) (n : ℕ) : List ℝ :=
  ((List.range n).map (fun i => 2 * x.headD 0 - x.getD (n - i) 0))
    ++ x ++
  ((List.range n).map (fun j => 2 * x.getLastD 0 - x.getD (x.length - 2 - j) 0))

/-- One step of `scipy.signal.lfilter` in direct form II transposed:
given the current delay line `z`, the output sample is `b[0]·x + z[0]`
and the new delay line is `z[k+1] + b[k+1]·x - a[k+1]·y`
(coefficients already padded and normalized by `a[0]`). -/
noncomputable def lfilter_step (bN aN z : List ℝ) (x : ℝ) : ℝ × List ℝ :=
  let y := bN.getD 0 0 * x + z.getD 0 0
  (y, (List.range z.length).map
        (fun k => z.getD (k + 1) 0 + bN.getD (k + 1) 0 * x - aN.getD (k + 1) 0 * y))

/-- Recursive core of `scipy.signal.lfilter`: fold `lfilter_step` over the
input, emitting one output sample per input sample. -/
noncomputable def lfilter_rec (bN aN : List ℝ) : List ℝ → List ℝ → List ℝ
  | _, [] => []
  | z, x :: xs =>
    (lfilter_step bN aN z x).1 :: lfilter_rec bN aN (lfilter_step bN aN z x).2 xs

/-- Embedding of `scipy.signal.lfilter b a x zi`: both coefficient
sequences are zero-padded to the common length and normalized by `a[0]`,
then the direct form II transposed recursion runs from initial
conditions `zi`. -/
noncomputable def lfilter (b a zi x : List ℝ) : List ℝ :=
  let n := max a.length b.length
  let a0 := a.getD 0 0
  let bN := (b.map (fun c => c / a0)) ++ List.replicate (n - b.length) 0
  let aN := (a.map (fun c => c / a0)) ++ List.replicate (n - a.length) 0
  lfilter_rec bN aN zi x

/-- Steady-state initial conditions as computed by
`scipy.signal.lfilter_zi`: with the coefficients normalized by `a[0]` and
zero-padded to the common length `n`, solve `(I - Aᵀ)·zi = B` where `A`
is the companion matrix of `a` and `B = b[1:] - a[1:]·b[0]`. -/
noncomputable def lfilter_zi (b a : List ℝ) : List ℝ :=
  let n := max a.length b.length
  let a0 := a.getD 0 0
  let bN := (b.map (fun c => c / a0)) ++ List.replicate (n - b.length) 0
  let aN := (a.map (fun c => c / a0)) ++ List.replicate (n - a.length) 0
  let A : Matrix (Fin (n - 1)) (Fin (n - 1)) ℝ := fun i j =>
    if (i : ℕ) = 0 then -(aN.getD ((j : ℕ) + 1) 0)
    else if (j : ℕ) + 1 = (i : ℕ) then 1 else 0
  let B : Fin (n - 1) → ℝ := fun i =>
    bN.getD ((i : ℕ) + 1) 0 - aN.getD ((i : ℕ) + 1) 0 * bN.getD 0 0
  List.ofFn (fun i => ((1 - A.transpose)⁻¹).mulVec B i)

/-- Embedding of `scipy.signal.filtfilt b a x` with its default arguments
(`padtype` odd, `padlen = 3·max(len(a), len(b))`, `method` pad): raise a
`ValueError` when the input is not longer than the pad, otherwise
odd-extend, run the filter forward from `zi·ext[0]`, run it backward from
`zi·y[-1]`, reverse, and trim the pad off both ends. -/
noncomputable def filtfilt (b a x : List ℝ) : Except Err (List ℝ) :=
  let edge := 3 * max a.length b.length
  if 0 < edge ∧ x.length ≤ edge then .error .insufficientSamples
  else
    let ext := odd_ext x edge
    let zi := lfilter_zi b a
    let x0 := ext.headD 0
    let y1 := lfilter b a (zi.map (fun c => c * x0)) ext
    let y0 := y1.getLastD 0
    let y2 := lfilter b a (zi.map (fun c => c * y0)) y1.reverse
    let y3 := y2.reverse
    .ok ((y3.drop edge).take (y3.length - 2 * edge))

/-- Embedding of `scipy.signal.iirnotch w0 Q` (with its default
`fs = 2`, so `w0` is the frequency as a fraction of Nyquist): reject
`w0` outside `[0, 1]` with a `ValueError` (note the check is not strict
at the boundaries), then `bw = w0/Q·π` — a Python `ZeroDivisionError`
when `Q = 0` — and the second-order notch section
`b = gain·[1, -2cos(w0·π), 1]`, `a = [1, -2·gain·cos(w0·π), 2·gain-1]`
with `gain = 1/(1+β)`, `β = (√(1-gb²)/gb)·tan(bw/2)`, `gb = 1/√2`.
When `1 + β = 0` Lean's total division makes `gain` the junk value `0`;
the float program never reaches that exact locus (numpy would produce
non-finite junk there), so theorems about the response carry the
nondegeneracy hypothesis `1 + β ≠ 0` rather than reading anything off
this junk value. -/
noncomputable def iirnotch (w0 Q : ℝ) : Except Err (List ℝ × List ℝ) :=
  if 1 < w0 ∨ w0 < 0 then .error .invalidFrequency
  else if Q = 0 then .error .zeroDivision
  else
    let bw := w0 / Q * Real.pi
    let w := w0 * Real.pi
    let gb : ℝ := 1 / Real.sqrt 2
    let beta := (Real.sqrt (1 - gb ^ 2) / gb) * Real.tan (bw / 2)
    let gain := 1 / (1 + beta)
    .ok ([gain, -2 * gain * Real.cos w, gain],
         [1, -2 * gain * Real.cos w, 2 * gain - 1])

/-- The notch-design phase of `apply_notch_filter` (source lines 28-30):
normalize the target frequency by Nyquist and call `iirnotch`. -/
noncomputable def design_notch (freq_to_remove sample_rate q_factor : ℝ) :
    Except Err (List ℝ × List ℝ) :=
  iirnotch (freq_to_remove / (sample_rate / 2)) q_factor

/-- Embedding of `apply_notch_filter` (source lines 23-33): design the
notch for the normalized frequency, then run `filtfilt`; any exception
propagates. -/
noncomputable def apply_notch_filter (signal_data : List ℝ)
    (freq_to_remove sample_rate q_factor : ℝ) : Except Err (List ℝ) :=
  match design_notch freq_to_remove sample_rate q_factor with
  | .error e => .error e
  | .ok (b, a) => filtfilt b a signal_data

/-- Frequency response `H(e^{iω}) = B(e^{-iω})/A(e^{-iω})` of the
rational filter `(b, a)`, the quantity the spec's §8 properties are about
(what `scipy.signal.freqz` evaluates). -/
noncomputable def freqz (b a : List ℝ) (ω : ℝ) : ℂ :=
  (((List.range b.length).map (fun (k : ℕ) =>
      ((b.getD k 0 : ℝ) : ℂ) * Complex.exp (-(Complex.I * (ω : ℂ) * (k : ℂ))))).sum) /
  (((List.range a.length).map (fun (k : ℕ) =>
      ((a.getD k 0 : ℝ) : ℂ) * Complex.exp (-(Complex.I * (ω : ℂ) * (k : ℂ))))).sum)

theorem dft_length (x : List ℂ) : (dft x).length = x.length := by
  unfold dft
  rw [List.length_map, List.length_range]

theorem fftfreq_length (n : ℕ) (d : ℝ) : (fftfreq n d).length = n := by
  simp [fftfreq]

/-- C7 counterexample: a one-sample input (length 1 < 2) does not fail —
`compute_psd` succeeds and returns the empty spectral estimate, because
`np.fft.fft` accepts any nonzero length and `len // 2 = 0`. -/
theorem compute_psd_singleton_ok : compute_psd [(1 : ℝ)] 2 = .ok ([], []) := by
  simp [compute_psd]

/-- C7 (amended): `compute_psd` fails if and only if the input is empty
(numpy rejects a zero-length FFT); every nonempty input, including a
single sample, produces a result. -/
theorem compute_psd_error_iff_empty (x : List ℝ) (fs : ℝ) :
    ((∃ e, compute_psd x fs = .error e) ↔ x = []) ∧
    (x = [] → compute_psd x fs = .error Err.invalidFFTLength) := by
  rcases eq_or_ne x [] with rfl | h
  · refine ⟨⟨fun _ => rfl, fun _ => ⟨Err.invalidFFTLength, by simp [compute_psd]⟩⟩, ?_⟩
    intro _
    simp [compute_psd]
  · have hlen : x.length ≠ 0 := fun hc => h (List.length_eq_zero.mp hc)
    refine ⟨⟨fun ⟨e, he⟩ => ?_, fun hc => absurd hc h⟩, fun hc => absurd hc h⟩
    rw [compute_psd, if_neg hlen] at he
    exact absurd he (by simp)

/-- C8 counterexample: a degenerate band with `low = 3 ≥ 2 = high` is not
surfaced as an error — `compute_band_powers` silently maps it to the
power value `0`. -/
theorem compute_band_powers_silent_invalid_band :
    compute_band_powers [0, 1] [5, 7] [((3 : ℝ), (2 : ℝ))] = [0] := by
  simp only [compute_band_powers, List.zip_cons_cons, List.zip_nil_right, List.map_cons,
    List.map_nil, List.filter_cons, List.filter_nil, decide_eq_true_eq]
  norm_num

/-- C8 (amended): a band with `low ≥ high` is silently tolerated — no bin
frequency satisfies `low ≤ f < high`, so the aggregator maps the band to
the power value `0`; no validation is performed anywhere. -/
theorem compute_band_powers_degenerate_band (freqs psd : List ℝ) (lo hi : ℝ)
    (h : hi ≤ lo) :
    compute_band_powers freqs psd [(lo, hi)] = [0] := by
  have hnil : (freqs.zip psd).filter
      (fun fp => decide (lo ≤ fp.1) && decide (fp.1 < hi)) = [] := by
    rw [List.filter_eq_nil_iff]
    intro fp _
    simp only [Bool.and_eq_true, decide_eq_true_eq, not_and]
    intro h1 h2
    linarith
  simp [compute_band_powers, hnil]

/-- C8 witness: the amended statement at the concrete degenerate band
`[5, 5)` over a one-bin estimate. -/
theorem compute_band_powers_degenerate_band_witness :
    (5 : ℝ) ≤ 5 ∧ compute_band_powers [(0 : ℝ)] [(1 : ℝ)] [((5 : ℝ), (5 : ℝ))] = [0] :=
  ⟨le_refl 5, compute_band_powers_degenerate_band [0] [1] 5 5 (le_refl 5)⟩

theorem sum_filter_map_eq {α : Type*} (p : α → Bool) (g : α → ℝ) (l : List α) :
    ((l.filter p).map g).sum = (l.map (fun x => if p x then g x else 0)).sum := by
  induction l with
  | nil => rfl
  | cons x xs ih =>
    by_cases h : p x
    · simp [List.filter_cons, h, ih]
    · simp [List.filter_cons, h, ih]

theorem sum_map_add {α : Type*} (f g : α → ℝ) (l : List α) :
    (l.map (fun x => f x + g x)).sum = (l.map f).sum + (l.map g).sum := by
  induction l with
  | nil => simp
  | cons x xs ih =>
    simp only [List.map_cons, List.sum_cons, ih]
    ring

theorem map_getD_range {α β : Type*} (l : List α) (g : α → β) (d : α) :
    (List.range l.length).map (fun j => g (l.getD j d)) = l.map g := by
  induction l with
  | nil => rfl
  | cons x xs ih =>
    rw [List.length_cons, List.range_succ_eq_map, List.map_cons, List.map_map, List.map_cons]
    refine congrArg (g x :: ·) ?_
    rw [← ih]
    refine List.map_congr_left fun j _ => ?_
    simp [Function.comp, List.getD_cons_succ]

/-- C2: `compute_band_powers` returns one value per band, in band order;
the value for band `k` is the sum, over all bin positions `j`, of the
power at `j` when `low ≤ freqs[j] < high` and `0` otherwise.  The empty
band list yields the empty report, and a band containing no bins
contributes an all-zero sum (hence power `0`).  The equal-length
hypothesis reflects the data model (numpy's boolean mask must match the
array size). -/
theorem compute_band_powers_spec (freqs psd : List ℝ) (bands : List (ℝ × ℝ))
    (hlen : freqs.length = psd.length) :
    (compute_band_powers freqs psd bands).length = bands.length ∧
    (∀ k, k < bands.length →
      (compute_band_powers freqs psd bands).getD k 0 =
        ((List.range freqs.length).map (fun j =>
          if (bands.getD k (0, 0)).1 ≤ freqs.getD j 0 ∧
              freqs.getD j 0 < (bands.getD k (0, 0)).2
          then psd.getD j 0 else 0)).sum) ∧
    compute_band_powers freqs psd [] = [] := by
  refine ⟨by simp [compute_band_powers], ?_, by simp [compute_band_powers]⟩
  intro k hk
  have hzl : (freqs.zip psd).length = freqs.length := by
    rw [List.length_zip, ← hlen, min_self]
  have hklen : k < (compute_band_powers freqs psd bands).length := by
    simpa [compute_band_powers] using hk
  rw [List.getD_eq_getElem _ _ hklen, List.getD_eq_getElem bands _ hk]
  unfold compute_band_powers
  rw [List.getElem_map, sum_filter_map_eq, ← map_getD_range (freqs.zip psd) _ (0, 0), hzl]
  refine congrArg List.sum (List.map_congr_left fun j hj => ?_)
  have hjlt : j < freqs.length := List.mem_range.mp hj
  have hjzip : j < (freqs.zip psd).length := by rw [hzl]; exact hjlt
  have hjpsd : j < psd.length := hlen ▸ hjlt
  rw [List.getD_eq_getElem _ _ hjzip, List.getElem_zip,
    List.getD_eq_getElem freqs _ hjlt, List.getD_eq_getElem psd _ hjpsd]
  simp [decide_eq_true_eq]

/-- C2 witness: concrete two-bin estimate and a single band. -/
theorem compute_band_powers_spec_witness :
    ([(0 : ℝ), 1].length = [(2 : ℝ), 3].length) ∧
    (compute_band_powers [(0 : ℝ), 1] [(2 : ℝ), 3] [((0 : ℝ), (1 : ℝ))]).getD 0 0 =
      ((List.range [(0 : ℝ), 1].length).map (fun j =>
        if ([((0 : ℝ), (1 : ℝ))].getD 0 (0, 0)).1 ≤ [(0 : ℝ), 1].getD j 0 ∧
            [(0 : ℝ), 1].getD j 0 < ([((0 : ℝ), (1 : ℝ))].getD 0 (0, 0)).2
        then [(2 : ℝ), 3].getD j 0 else 0)).sum :=
  ⟨rfl, (compute_band_powers_spec [0, 1] [2, 3] [(0, 1)] rfl).2.1 0 (by norm_num)⟩

/-- C10: every power in a successfully computed spectral estimate is a
squared magnitude, hence nonnegative, and every band power derived from
it is a sum of such entries, hence nonnegative. -/
theorem psd_and_band_powers_nonneg (x : List ℝ) (fs : ℝ) (freqs psd : List ℝ)
    (h : compute_psd x fs = .ok (freqs, psd)) :
    (∀ p ∈ psd, 0 ≤ p) ∧
    ∀ bands : List (ℝ × ℝ), ∀ v ∈ compute_band_powers freqs psd bands, 0 ≤ v := by
  have hpsd : ∀ p ∈ psd, 0 ≤ p := by
    unfold compute_psd at h
    by_cases h0 : x.length = 0
    · rw [if_pos h0] at h
      exact absurd h (by simp)
    · rw [if_neg h0] at h
      simp only [Except.ok.injEq, Prod.mk.injEq] at h
      obtain ⟨-, hp⟩ := h
      intro p hp'
      rw [← hp] at hp'
      rcases List.mem_map.mp hp' with ⟨c, -, rfl⟩
      positivity
  refine ⟨hpsd, fun bands v hv => ?_⟩
  unfold compute_band_powers at hv
  rcases List.mem_map.mp hv with ⟨band, -, rfl⟩
  apply List.sum_nonneg
  intro y hy
  rcases List.mem_map.mp hy with ⟨fp, hfp, rfl⟩
  rcases fp with ⟨f, p⟩
  exact hpsd p (List.of_mem_zip (List.mem_of_mem_filter hfp)).2

/-- C10 witness: the nonnegativity statement at a concrete one-sample
input, whose estimate is empty. -/
theorem psd_and_band_powers_nonneg_witness :
    compute_psd [(3 : ℝ)] 7 = .ok ([], []) ∧
    ((∀ p ∈ ([] : List ℝ), 0 ≤ p) ∧
      ∀ bands : List (ℝ × ℝ), ∀ v ∈ compute_band_powers [] [] bands, 0 ≤ v) :=
  ⟨by simp [compute_psd], psd_and_band_powers_nonneg [3] 7 [] [] (by simp [compute_psd])⟩

/-- C1: for a nonempty input of length `N` and positive sample rate,
`compute_psd` succeeds and returns exactly `⌊N/2⌋` frequencies and
`⌊N/2⌋` powers; the `k`-th frequency is `k·fs/N` (so the frequency list
is strictly increasing and everywhere strictly below the Nyquist
frequency `fs/2`) and the `k`-th power is the squared magnitude of the
`k`-th DFT coefficient — no division by `N`, no windowing. -/
theorem compute_psd_spec (x : List ℝ) (fs : ℝ) (hx : x ≠ []) (hfs : 0 < fs) :
    (compute_psd x fs).isOk = true ∧
    ∀ freqs psd : List ℝ, compute_psd x fs = .ok (freqs, psd) →
      freqs.length = x.length / 2 ∧
      psd.length = x.length / 2 ∧
      (∀ k, k < x.length / 2 →
        freqs.getD k 0 = (k : ℝ) * fs / (x.length : ℝ) ∧
        psd.getD k 0 = Complex.abs ((dft (x.map Complex.ofReal)).getD k 0) ^ 2) ∧
      freqs.Pairwise (· < ·) ∧
      (∀ f ∈ freqs, f < fs / 2) := by
  have h0 : x.length ≠ 0 := fun hc => hx (List.length_eq_zero.mp hc)
  have hnpos : 0 < x.length := Nat.pos_of_ne_zero h0
  constructor
  · unfold compute_psd
    rw [if_neg h0]
    rfl
  · intro freqs psd h
    unfold compute_psd at h
    rw [if_neg h0] at h
    simp only [Except.ok.injEq, Prod.mk.injEq] at h
    obtain ⟨hf, hp⟩ := h
    subst hf
    subst hp
    have hfl : ((fftfreq x.length (1 / fs)).take (x.length / 2)).length = x.length / 2 := by
      rw [List.length_take, fftfreq_length]
      exact min_eq_left (Nat.div_le_self _ 2)
    have hdl : (dft (x.map Complex.ofReal)).length = x.length := by
      rw [dft_length, List.length_map]
    have hpl : (((dft (x.map Complex.ofReal)).take (x.length / 2)).map
        (fun c => Complex.abs c ^ 2)).length = x.length / 2 := by
      rw [List.length_map, List.length_take, hdl]
      exact min_eq_left (Nat.div_le_self _ 2)
    have hget : ∀ k, k < x.length / 2 →
        ((fftfreq x.length (1 / fs)).take (x.length / 2)).getD k 0 =
          (k : ℝ) * fs / (x.length : ℝ) := by
      intro k hk
      have hk1 : k < ((fftfreq x.length (1 / fs)).take (x.length / 2)).length := by
        rw [hfl]; exact hk
      rw [List.getD_eq_getElem _ _ hk1, List.getElem_take]
      unfold fftfreq
      rw [List.getElem_map, List.getElem_range, if_pos (by omega : k < (x.length + 1) / 2)]
      rw [one_div, inv_mul_eq_div, div_div_eq_mul_div]
    have hgetp : ∀ k, k < x.length / 2 →
        (((dft (x.map Complex.ofReal)).take (x.length / 2)).map
          (fun c => Complex.abs c ^ 2)).getD k 0 =
          Complex.abs ((dft (x.map Complex.ofReal)).getD k 0) ^ 2 := by
      intro k hk
      have hk1 : k < (((dft (x.map Complex.ofReal)).take (x.length / 2)).map
          (fun c => Complex.abs c ^ 2)).length := by rw [hpl]; exact hk
      rw [List.getD_eq_getElem _ _ hk1, List.getElem_map, List.getElem_take,
        List.getD_eq_getElem _ _ (show k < (dft (x.map Complex.ofReal)).length by
          rw [hdl]; omega)]
    have hncast : (0 : ℝ) < (x.length : ℝ) := by exact_mod_cast hnpos
    refine ⟨hfl, hpl, fun k hk => ⟨hget k hk, hgetp k hk⟩, ?_, ?_⟩
    · rw [List.pairwise_iff_getElem]
      intro i j hi hj hij
      have hi' : i < x.length / 2 := by rw [hfl] at hi; exact hi
      have hj' : j < x.length / 2 := by rw [hfl] at hj; exact hj
      rw [← List.getD_eq_getElem _ 0 hi, ← List.getD_eq_getElem _ 0 hj,
        hget i hi', hget j hj']
      have hmul : (i : ℝ) * fs < (j : ℝ) * fs := by
        apply mul_lt_mul_of_pos_right _ hfs
        exact_mod_cast hij
      exact div_lt_div_of_pos_right hmul hncast
    · intro f hf
      rcases List.mem_iff_getElem.mp hf with ⟨k, hk, rfl⟩
      have hk' : k < x.length / 2 := by rw [hfl] at hk; exact hk
      rw [← List.getD_eq_getElem _ 0 hk, hget k hk']
      have h2k : 2 * k < x.length := by omega
      rw [div_lt_div_iff₀ hncast two_pos]
      have hcast : (2 : ℝ) * (k : ℝ) < (x.length : ℝ) := by exact_mod_cast h2k
      nlinarith

/-- C1 witness: the statement at the concrete two-sample input `[1, 0]`
with sample rate `2`. -/
theorem compute_psd_spec_witness :
    ([(1 : ℝ), 0] ≠ [] ∧ (0 : ℝ) < 2) ∧ (compute_psd [(1 : ℝ), 0] 2).isOk = true :=
  ⟨⟨by simp, by norm_num⟩, (compute_psd_spec [1, 0] 2 (by simp) (by norm_num)).1⟩

theorem countP_band_eq_one (f : ℝ) (bands : List (ℝ × ℝ))
    (hex : ∃ b ∈ bands, b.1 ≤ f ∧ f < b.2)
    (hdisj : bands.Pairwise
      (fun p q => ∀ g : ℝ, ¬(p.1 ≤ g ∧ g < p.2 ∧ q.1 ≤ g ∧ g < q.2))) :
    bands.countP (fun b => decide (b.1 ≤ f ∧ f < b.2)) = 1 := by
  induction bands with
  | nil => simp at hex
  | cons b bs ih =>
    rw [List.countP_cons]
    rcases List.pairwise_cons.mp hdisj with ⟨hhead, htail⟩
    by_cases hmem : b.1 ≤ f ∧ f < b.2
    · have h0 : bs.countP (fun q => decide (q.1 ≤ f ∧ f < q.2)) = 0 := by
        rw [List.countP_eq_zero]
        intro q hq
        simp only [decide_eq_true_eq]
        intro hqmem
        exact hhead q hq f ⟨hmem.1, hmem.2, hqmem.1, hqmem.2⟩
      rw [h0]
      simp [hmem]
    · have hex' : ∃ q ∈ bs, q.1 ≤ f ∧ f < q.2 := by
        rcases hex with ⟨q, hq, hmemq⟩
        rcases List.mem_cons.mp hq with rfl | hq'
        · exact absurd hmemq hmem
        · exact ⟨q, hq', hmemq⟩
      rw [ih hex' htail]
      simp [hmem]

theorem sum_compute_band_powers (l : List (ℝ × ℝ)) (bands : List (ℝ × ℝ)) :
    (bands.map (fun band =>
      ((l.filter (fun fp => decide (band.1 ≤ fp.1 ∧ fp.1 < band.2))).map Prod.snd).sum)).sum
    = (l.map (fun fp =>
        ((bands.countP (fun band => decide (band.1 ≤ fp.1 ∧ fp.1 < band.2)) : ℕ) : ℝ)
          * fp.2)).sum := by
  induction bands with
  | nil => simp
  | cons b bs ih =>
    rw [List.map_cons, List.sum_cons, ih, sum_filter_map_eq, ← sum_map_add]
    refine congrArg List.sum (List.map_congr_left fun fp _ => ?_)
    rw [List.countP_cons]
    push_cast
    by_cases hmem : b.1 ≤ fp.1 ∧ fp.1 < b.2
    · simp only [decide_eq_true_eq, hmem, and_self, if_true]
      ring
    · simp only [decide_eq_true_eq, hmem, if_false]
      ring

/-- C4: for a spectral estimate whose bin frequencies all lie in
`[0, nyq)` and any band list that exactly partitions `[0, nyq)`
(pairwise disjoint and covering), the band powers sum to the total power
of all bins. -/
theorem band_powers_additive (freqs psd : List ℝ) (bands : List (ℝ × ℝ)) (nyq : ℝ)
    (hlen : freqs.length = psd.length)
    (hrange : ∀ f ∈ freqs, 0 ≤ f ∧ f < nyq)
    (hdisj : bands.Pairwise
      (fun p q => ∀ g : ℝ, ¬(p.1 ≤ g ∧ g < p.2 ∧ q.1 ≤ g ∧ g < q.2)))
    (hcover : ∀ f : ℝ, 0 ≤ f → f < nyq → ∃ b ∈ bands, b.1 ≤ f ∧ f < b.2) :
    (compute_band_powers freqs psd bands).sum = psd.sum := by
  unfold compute_band_powers
  rw [sum_compute_band_powers]
  have hone : ∀ fp ∈ freqs.zip psd,
      ((bands.countP (fun band => decide (band.1 ≤ fp.1 ∧ fp.1 < band.2)) : ℕ) : ℝ) * fp.2
        = (fun fp : ℝ × ℝ => fp.2) fp := by
    intro fp hfp
    have hf : fp.1 ∈ freqs := by
      rcases fp with ⟨f, p⟩
      exact (List.of_mem_zip hfp).1
    obtain ⟨h1, h2⟩ := hrange fp.1 hf
    rw [countP_band_eq_one fp.1 bands (hcover fp.1 h1 h2) hdisj]
    simp
  rw [List.map_congr_left hone]
  exact congrArg List.sum (List.map_snd_zip freqs psd hlen.ge)

/-- C4 witness: two contiguous bands partitioning `[0, 2)` over a two-bin
estimate. -/
theorem band_powers_additive_witness :
    ([(0 : ℝ), 1].length = [(2 : ℝ), 3].length ∧
      (∀ f ∈ [(0 : ℝ), 1], 0 ≤ f ∧ f < 2) ∧
      ([((0 : ℝ), (1 : ℝ)), ((1 : ℝ), (2 : ℝ))].Pairwise
        (fun p q => ∀ g : ℝ, ¬(p.1 ≤ g ∧ g < p.2 ∧ q.1 ≤ g ∧ g < q.2))) ∧
      (∀ f : ℝ, 0 ≤ f → f < 2 →
        ∃ b ∈ [((0 : ℝ), (1 : ℝ)), ((1 : ℝ), (2 : ℝ))], b.1 ≤ f ∧ f < b.2)) ∧
    (compute_band_powers [(0 : ℝ), 1] [(2 : ℝ), 3]
      [((0 : ℝ), (1 : ℝ)), ((1 : ℝ), (2 : ℝ))]).sum = [(2 : ℝ), 3].sum := by
  have hr : ∀ f ∈ [(0 : ℝ), 1], 0 ≤ f ∧ f < 2 := by
    intro f hf
    rcases List.mem_cons.mp hf with rfl | hf'
    · norm_num
    · rcases List.mem_cons.mp hf' with rfl | h
      · norm_num
      · simp at h
  have hd : ([((0 : ℝ), (1 : ℝ)), ((1 : ℝ), (2 : ℝ))].Pairwise
      (fun p q => ∀ g : ℝ, ¬(p.1 ≤ g ∧ g < p.2 ∧ q.1 ≤ g ∧ g < q.2))) := by
    refine List.Pairwise.cons ?_ (List.pairwise_singleton _ _)
    intro q hq g hcon
    have hq' : q = ((1 : ℝ), (2 : ℝ)) := by simpa using hq
    subst hq'
    obtain ⟨-, h1, h2, -⟩ := hcon
    simp only at h1 h2
    linarith
  have hc : ∀ f : ℝ, 0 ≤ f → f < 2 →
      ∃ b ∈ [((0 : ℝ), (1 : ℝ)), ((1 : ℝ), (2 : ℝ))], b.1 ≤ f ∧ f < b.2 := by
    intro f h0 h2
    rcases lt_or_le f 1 with h1 | h1
    · exact ⟨(0, 1), by simp, h0, h1⟩
    · exact ⟨(1, 2), by simp, h1, h2⟩
  exact ⟨⟨rfl, hr, hd, hc⟩, band_powers_additive _ _ _ 2 rfl hr hd hc⟩

theorem lfilter_rec_length (bN aN : List ℝ) (z x : List ℝ) :
    (lfilter_rec bN aN z x).length = x.length := by
  induction x generalizing z with
  | nil => rfl
  | cons h t ih => simp [lfilter_rec, ih]

theorem lfilter_length (b a zi x : List ℝ) : (lfilter b a zi x).length = x.length := by
  unfold lfilter
  exact lfilter_rec_length _ _ _ _

theorem odd_ext_length (x : List ℝ) (n : ℕ) :
    (odd_ext x n).length = n + x.length + n := by
  simp [odd_ext]
  omega

theorem filtfilt_ok_length (b a x y : List ℝ) (h : filtfilt b a x = .ok y) :
    y.length = x.length := by
  unfold filtfilt at h
  by_cases hg : 0 < 3 * max a.length b.length ∧ x.length ≤ 3 * max a.length b.length
  · rw [if_pos hg] at h
    exact absurd h (by simp)
  · rw [if_neg hg] at h
    simp only [Except.ok.injEq] at h
    subst h
    simp only [List.length_take, List.length_drop, List.length_reverse,
      lfilter_length, odd_ext_length]
    omega

theorem lfilter_zi_trivial : lfilter_zi [1] [1] = ([] : List ℝ) := by
  have h : (lfilter_zi [(1 : ℝ)] [1]).length = 0 := by
    unfold lfilter_zi
    simp
  exact List.eq_nil_of_length_eq_zero h

/-- C3: whenever the zero-phase applier succeeds (on any coefficients, in
particular the notch stage's and the low-pass stage's), the output has
exactly the length of the input: the pad added before the two passes is
trimmed back off. -/
theorem filtfilt_preserves_length (b a x y : List ℝ)
    (h : filtfilt b a x = .ok y) : y.length = x.length :=
  filtfilt_ok_length b a x y h

/-- C3 witness: a concrete successful `filtfilt` call on four samples
with the identity filter returns four samples. -/
theorem filtfilt_preserves_length_witness :
    filtfilt [1] [1] [(0 : ℝ), 0, 0, 0] = .ok [0, 0, 0, 0] ∧
    ([(0 : ℝ), 0, 0, 0] : List ℝ).length = ([(0 : ℝ), 0, 0, 0] : List ℝ).length := by
  have heval : filtfilt [1] [1] [(0 : ℝ), 0, 0, 0] = .ok [0, 0, 0, 0] := by
    unfold filtfilt
    rw [if_neg (by norm_num)]
    have hext : odd_ext [(0 : ℝ), 0, 0, 0] (3 * max [(1 : ℝ)].length [(1 : ℝ)].length) =
        [0, 0, 0, 0, 0, 0, 0, 0, 0, 0] := by
      norm_num [odd_ext, List.range_succ]
    rw [hext, lfilter_zi_trivial]
    norm_num [lfilter, lfilter_rec, lfilter_step]
  exact ⟨heval, filtfilt_preserves_length [1] [1] [0, 0, 0, 0] [0, 0, 0, 0] heval⟩

/-- C9: the zero-phase applier pads with exactly
`3·max(len(a), len(b))` reflected samples at each end of the input, fails
with the insufficient-samples error exactly when the input is not
strictly longer than that pad, and on success trims the pad off, giving
back the input length. -/
theorem filtfilt_padding_spec (b a x : List ℝ) (hba : 0 < max a.length b.length) :
    (filtfilt b a x = .error Err.insufficientSamples ↔
      x.length ≤ 3 * max a.length b.length) ∧
    (3 * max a.length b.length < x.length →
      (∃ l r : List ℝ, l.length = 3 * max a.length b.length ∧
        r.length = 3 * max a.length b.length ∧
        odd_ext x (3 * max a.length b.length) = l ++ x ++ r) ∧
      ∃ y, filtfilt b a x = .ok y ∧ y.length = x.length) := by
  constructor
  · constructor
    · intro h
      by_contra hle
      push_neg at hle
      unfold filtfilt at h
      rw [if_neg (fun hc => by omega)] at h
      exact absurd h (by simp)
    · intro hle
      unfold filtfilt
      rw [if_pos ⟨by omega, hle⟩]
  · intro hlt
    constructor
    · exact ⟨(List.range (3 * max a.length b.length)).map
          (fun i => 2 * x.headD 0 - x.getD (3 * max a.length b.length - i) 0),
        (List.range (3 * max a.length b.length)).map
          (fun j => 2 * x.getLastD 0 - x.getD (x.length - 2 - j) 0),
        by simp, by simp, rfl⟩
    · have hng : ¬(0 < 3 * max a.length b.length ∧
          x.length ≤ 3 * max a.length b.length) := fun hc => by omega
      have hok : ∃ y, filtfilt b a x = .ok y := by
        unfold filtfilt
        rw [if_neg hng]
        exact ⟨_, rfl⟩
      rcases hok with ⟨y, hy⟩
      exact ⟨y, hy, filtfilt_ok_length b a x y hy⟩

/-- C9 witness: for the identity filter (pad `3`) a five-sample input is
long enough, so the error characterization is non-vacuous. -/
theorem filtfilt_padding_spec_witness :
    0 < max [(1 : ℝ)].length [(1 : ℝ)].length ∧
    (filtfilt [1] [1] [(0 : ℝ), 0, 0, 0, 0] = .error Err.insufficientSamples ↔
      [(0 : ℝ), 0, 0, 0, 0].length ≤ 3 * max [(1 : ℝ)].length [(1 : ℝ)].length) :=
  ⟨by norm_num, (filtfilt_padding_spec [1] [1] [0, 0, 0, 0, 0] (by norm_num)).1⟩

/-- C6 counterexample: the target frequency `0` is not strictly between
`0` and Nyquist, yet `design_notch 0 200 30` succeeds (scipy's check
`w0 > 1 or w0 < 0` lets the boundary through) and returns the degenerate
section `b = a = [1, -2, 1]`. -/
theorem design_notch_zero_freq_ok :
    design_notch 0 200 30 = .ok ([1, -2, 1], [1, -2, 1]) := by
  unfold design_notch iirnotch
  rw [if_neg (by norm_num), if_neg (by norm_num : ¬((30 : ℝ) = 0))]
  norm_num [Real.tan_zero, Real.cos_zero]

/-- C6 (amended): for a positive sample rate, the designer raises the
invalid-frequency error exactly when the target frequency is negative or
above Nyquist (the boundaries `0` and Nyquist are accepted), and within
the accepted range the only other failure is the division-by-zero error
exactly at `Q = 0`; a negative quality factor is not rejected. -/
theorem design_notch_error_spec (freq fs Q : ℝ) (hfs : 0 < fs) :
    (design_notch freq fs Q = .error Err.invalidFrequency ↔
      (freq < 0 ∨ fs / 2 < freq)) ∧
    (0 ≤ freq → freq ≤ fs / 2 →
      (design_notch freq fs Q = .error Err.zeroDivision ↔ Q = 0)) := by
  have hhalf : 0 < fs / 2 := by linarith
  have hw1 : 1 < freq / (fs / 2) ↔ fs / 2 < freq := one_lt_div hhalf
  have hw2 : freq / (fs / 2) < 0 ↔ freq < 0 := by
    constructor
    · intro h
      by_contra hge
      push_neg at hge
      have := div_nonneg hge (le_of_lt hhalf)
      linarith
    · intro h
      exact div_neg_of_neg_of_pos h hhalf
  unfold design_notch iirnotch
  by_cases hc : 1 < freq / (fs / 2) ∨ freq / (fs / 2) < 0
  · rw [if_pos hc]
    constructor
    · constructor
      · intro _
        rcases hc with h | h
        · right; exact hw1.mp h
        · left; exact hw2.mp h
      · intro _; rfl
    · intro h0 hle
      exfalso
      rcases hc with h | h
      · rw [hw1] at h; linarith
      · rw [hw2] at h; linarith
  · rw [if_neg hc]
    push_neg at hc
    obtain ⟨hc1, hc2⟩ := hc
    have hrhs : ¬(freq < 0 ∨ fs / 2 < freq) := by
      rintro (h | h)
      · exact absurd (hw2.mpr h) (by linarith)
      · exact absurd (hw1.mpr h) (by linarith)
    by_cases hQ : Q = 0
    · rw [if_pos hQ]
      refine ⟨⟨fun h => absurd h (by simp), fun h => absurd h hrhs⟩,
        fun _ _ => ⟨fun _ => hQ, fun _ => rfl⟩⟩
    · rw [if_neg hQ]
      refine ⟨⟨fun h => absurd h (by simp), fun h => absurd h hrhs⟩,
        fun _ _ => ⟨fun h => absurd h (by simp), fun h => absurd h hQ⟩⟩

/-- C6 witness: the amended characterization at the concrete valid call
`(50 Hz, 200 Hz, Q = 30)`. -/
theorem design_notch_error_spec_witness :
    (0 : ℝ) < 200 ∧
    ((design_notch 50 200 30 = .error Err.invalidFrequency ↔
        ((50 : ℝ) < 0 ∨ (200 : ℝ) / 2 < 50)) ∧
      ((0 : ℝ) ≤ 50 → (50 : ℝ) ≤ 200 / 2 →
        (design_notch 50 200 30 = .error Err.zeroDivision ↔ (30 : ℝ) = 0))) :=
  ⟨by norm_num, design_notch_error_spec 50 200 30 (by norm_num)⟩

theorem freqz_three (b0 b1 b2 a0 a1 a2 ω : ℝ) :
    freqz [b0, b1, b2] [a0, a1, a2] ω =
      ((b0 : ℂ) + (b1 : ℂ) * Complex.exp (-(Complex.I * ω)) +
        (b2 : ℂ) * Complex.exp (-(Complex.I * ω)) ^ 2) /
      ((a0 : ℂ) + (a1 : ℂ) * Complex.exp (-(Complex.I * ω)) +
        (a2 : ℂ) * Complex.exp (-(Complex.I * ω)) ^ 2) := by
  have h2 : Complex.exp (-(Complex.I * (ω : ℂ) * (2 : ℂ))) =
      Complex.exp (-(Complex.I * ω)) ^ 2 := by
    rw [sq, ← Complex.exp_add]
    congr 1
    ring
  unfold freqz
  simp only [List.length_cons, List.length_nil, List.range_succ, List.range_zero,
    List.map_append, List.map_cons, List.map_nil, List.sum_append, List.sum_cons,
    List.sum_nil, List.getD_cons_zero, List.getD_cons_succ]
  norm_num [h2]

theorem exp_neg_I_eq (ω : ℝ) :
    Complex.exp (-(Complex.I * ω)) = Complex.cos ω - Complex.sin ω * Complex.I := by
  rw [show -(Complex.I * (ω : ℂ)) = ((-ω : ℝ) : ℂ) * Complex.I by push_cast; ring,
    Complex.exp_mul_I]
  push_cast
  rw [Complex.cos_neg, Complex.sin_neg]
  ring

theorem notch_num_zero (g w : ℝ) :
    (g : ℂ) + ((-2 * g * Real.cos w : ℝ) : ℂ) * Complex.exp (-(Complex.I * w)) +
      (g : ℂ) * Complex.exp (-(Complex.I * w)) ^ 2 = 0 := by
  rw [exp_neg_I_eq]
  push_cast [Complex.ofReal_cos]
  have hsc := Complex.sin_sq_add_cos_sq (w : ℂ)
  linear_combination (-(g : ℂ)) * hsc + ((g : ℂ) * Complex.sin w ^ 2) * Complex.I_sq

theorem sqrt_prefactor : Real.sqrt (1 - (1 / Real.sqrt 2) ^ 2) / (1 / Real.sqrt 2) = 1 := by
  have h2 : ((1 : ℝ) / Real.sqrt 2) ^ 2 = 1 / 2 := by
    rw [div_pow, one_pow, Real.sq_sqrt (by norm_num : (0 : ℝ) ≤ 2)]
  rw [h2, show (1 : ℝ) - 1 / 2 = 2⁻¹ by norm_num, Real.sqrt_inv, one_div]
  exact div_self (by positivity)

theorem notch_abs_at_w (g w : ℝ) :
    Complex.abs (freqz [g, -2 * g * Real.cos w, g]
      [1, -2 * g * Real.cos w, 2 * g - 1] w) = 0 := by
  rw [freqz_three, notch_num_zero, zero_div, map_zero]

theorem notch_abs_at_zero (g w : ℝ) (hg : g ≠ 0) (hc : Real.cos w ≠ 1) :
    Complex.abs (freqz [g, -2 * g * Real.cos w, g]
      [1, -2 * g * Real.cos w, 2 * g - 1] 0) = 1 := by
  rw [freqz_three]
  norm_num
  have hCne : Complex.cos ((w : ℝ) : ℂ) ≠ 1 := by
    rw [← Complex.ofReal_cos]
    exact_mod_cast hc
  have hX : 2 * (g : ℂ) * (1 - Complex.cos ((w : ℝ) : ℂ)) ≠ 0 :=
    mul_ne_zero (mul_ne_zero two_ne_zero (Complex.ofReal_ne_zero.mpr hg))
      (sub_ne_zero.mpr (Ne.symm hCne))
  have hnum : (g : ℂ) + -(2 * (g : ℂ) * Complex.cos ((w : ℝ) : ℂ)) + (g : ℂ) =
      2 * (g : ℂ) * (1 - Complex.cos ((w : ℝ) : ℂ)) := by ring
  have hden : (1 : ℂ) + -(2 * (g : ℂ) * Complex.cos ((w : ℝ) : ℂ)) + (2 * (g : ℂ) - 1) =
      2 * (g : ℂ) * (1 - Complex.cos ((w : ℝ) : ℂ)) := by ring
  rw [hnum, hden, div_self (Complex.abs.ne_zero hX)]

theorem notch_abs_at_pi (g w : ℝ) (hg : g ≠ 0) (hc : Real.cos w ≠ -1) :
    Complex.abs (freqz [g, -2 * g * Real.cos w, g]
      [1, -2 * g * Real.cos w, 2 * g - 1] Real.pi) = 1 := by
  rw [freqz_three, exp_neg_I_eq]
  rw [show Complex.cos ((Real.pi : ℝ) : ℂ) = -1 by
      rw [← Complex.ofReal_cos]; norm_num [Real.cos_pi],
    show Complex.sin ((Real.pi : ℝ) : ℂ) = 0 by
      rw [← Complex.ofReal_sin]; norm_num [Real.sin_pi]]
  norm_num
  have hCne : Complex.cos ((w : ℝ) : ℂ) ≠ -1 := by
    rw [← Complex.ofReal_cos]
    intro h
    exact hc (by exact_mod_cast h)
  have hX : 2 * (g : ℂ) * (1 + Complex.cos ((w : ℝ) : ℂ)) ≠ 0 :=
    mul_ne_zero (mul_ne_zero two_ne_zero (Complex.ofReal_ne_zero.mpr hg))
      (fun h => hCne (by linear_combination h))
  have hnum : (g : ℂ) + 2 * (g : ℂ) * Complex.cos ((w : ℝ) : ℂ) + (g : ℂ) =
      2 * (g : ℂ) * (1 + Complex.cos ((w : ℝ) : ℂ)) := by ring
  have hden : (1 : ℂ) + 2 * (g : ℂ) * Complex.cos ((w : ℝ) : ℂ) + (2 * (g : ℂ) - 1) =
      2 * (g : ℂ) * (1 + Complex.cos ((w : ℝ) : ℂ)) := by ring
  rw [hnum, hden, div_self (Complex.abs.ne_zero hX)]

/-- C5: the designed notch has response magnitude exactly `0` at the
target frequency — the zero pair sits on the unit circle at angle
`π·w0` — and exactly `1` (within any tolerance) at the far-away
frequencies DC and Nyquist.  The hypothesis `1 + tan(π·w0/(2Q)) ≠ 0`
(which holds in particular for every `Q ≥ 1`) only excludes the
measure-zero parameter locus where the gain `1/(1+β)` divides by zero:
there the exact-real reading of the float code is undefined (a float
`tan` never returns `-1` exactly), so the real-number model carries no
information about the program. -/
theorem notch_response_spec (freq fs Q : ℝ) (b a : List ℝ)
    (h1 : 0 < freq) (h2 : freq < fs / 2) (hQ : 0 < Q)
    (hnd : 1 + Real.tan (freq / (fs / 2) / Q * Real.pi / 2) ≠ 0)
    (hd : design_notch freq fs Q = .ok (b, a)) :
    Complex.abs (freqz b a (freq / (fs / 2) * Real.pi)) = 0 ∧
    Complex.abs (freqz b a 0) = 1 ∧
    Complex.abs (freqz b a Real.pi) = 1 := by
  have hhalf : 0 < fs / 2 := lt_trans h1 h2
  have hw0pos : 0 < freq / (fs / 2) := div_pos h1 hhalf
  have hw0lt : freq / (fs / 2) < 1 := (div_lt_one hhalf).mpr h2
  unfold design_notch iirnotch at hd
  rw [if_neg (by push_neg; constructor <;> linarith), if_neg (ne_of_gt hQ)] at hd
  simp only [Except.ok.injEq, Prod.mk.injEq] at hd
  obtain ⟨hb, ha⟩ := hd
  subst hb
  subst ha
  rw [sqrt_prefactor, one_mul]
  have hg : 1 / (1 + Real.tan (freq / (fs / 2) / Q * Real.pi / 2)) ≠ 0 :=
    one_div_ne_zero hnd
  have hwpos : 0 < freq / (fs / 2) * Real.pi := mul_pos hw0pos Real.pi_pos
  have hwlt : freq / (fs / 2) * Real.pi < Real.pi := by
    nlinarith [Real.pi_pos]
  have hc1 : Real.cos (freq / (fs / 2) * Real.pi) ≠ 1 := by
    have h := Real.cos_lt_cos_of_nonneg_of_le_pi (le_refl 0) (le_of_lt hwlt) hwpos
    rw [Real.cos_zero] at h
    exact ne_of_lt h
  have hcm1 : Real.cos (freq / (fs / 2) * Real.pi) ≠ -1 := by
    have h := Real.cos_lt_cos_of_nonneg_of_le_pi (le_of_lt hwpos) (le_refl Real.pi) hwlt
    rw [Real.cos_pi] at h
    exact Ne.symm (ne_of_lt h)
  exact ⟨notch_abs_at_w _ _, notch_abs_at_zero _ _ hg hc1, notch_abs_at_pi _ _ hg hcm1⟩

/-- C5 witness: the statement at `(50, 200, 1)`, whose designed section
is exactly `b = [1/2, 0, 1/2]`, `a = [1, 0, 0]`. -/
theorem notch_response_spec_witness :
    ((0 : ℝ) < 50 ∧ (50 : ℝ) < 200 / 2 ∧ (0 : ℝ) < 1 ∧
      1 + Real.tan ((50 : ℝ) / (200 / 2) / 1 * Real.pi / 2) ≠ 0 ∧
      design_notch 50 200 1 = .ok ([1 / 2, 0, 1 / 2], [1, 0, 0])) ∧
    (Complex.abs (freqz [1 / 2, 0, 1 / 2] [1, 0, 0] ((50 : ℝ) / (200 / 2) * Real.pi)) = 0 ∧
      Complex.abs (freqz [1 / 2, 0, 1 / 2] [1, 0, 0] 0) = 1 ∧
      Complex.abs (freqz [1 / 2, 0, 1 / 2] [1, 0, 0] Real.pi) = 1) := by
  have htan1 : Real.tan ((1 : ℝ) / 2 * Real.pi / 2) = 1 := by
    rw [show (1 : ℝ) / 2 * Real.pi / 2 = Real.pi / 4 by ring]
    exact Real.tan_pi_div_four
  have hcos : Real.cos ((1 : ℝ) / 2 * Real.pi) = 0 := by
    rw [show (1 : ℝ) / 2 * Real.pi = Real.pi / 2 by ring]
    exact Real.cos_pi_div_two
  have hnd : 1 + Real.tan ((50 : ℝ) / (200 / 2) / 1 * Real.pi / 2) ≠ 0 := by
    rw [show (50 : ℝ) / (200 / 2) / 1 * Real.pi / 2 = (1 : ℝ) / 2 * Real.pi / 2 by ring,
      htan1]
    norm_num
  have hd : design_notch 50 200 1 = .ok ([1 / 2, 0, 1 / 2], [1, 0, 0]) := by
    unfold design_notch iirnotch
    rw [if_neg (by norm_num), if_neg (by norm_num)]
    norm_num [sqrt_prefactor, htan1, hcos]
  exact ⟨⟨by norm_num, by norm_num, by norm_num, hnd, hd⟩,
    notch_response_spec 50 200 1 _ _ (by norm_num) (by norm_num) (by norm_num) hnd hd⟩
